import Mathlib

/-!
Shallow embedding of the extractive text summarizer implemented in
src/enwar.py, together with proofs about it.

Modelling conventions:
* Python dictionaries are modelled as insertion ordered association lists
  (Python dictionaries preserve insertion order, and both iteration and
  heapq.nlargest walk the keys in that order).
* Python floating point numbers are modelled as exact rationals.  The
  arithmetic is written with mkRat based helpers (qadd, qmul, qdiv) that
  the kernel can evaluate; they are proved equal to the Mathlib rational
  operations below.
* The spacy English model (nlp_en) is an external resource: the English
  pipeline is therefore parametrised by a segmentation function that maps
  the input text to a list of sentences made of tokens, together with the
  stop word list.  All theorems about the English pipeline hold for every
  such segmentation function.
* The camel_tools helpers are modelled concretely from their documented
  behaviour: dediac_ar removes the Arabic diacritic (harakat) characters,
  and simple_word_tokenize splits a string into single punctuation
  character tokens and maximal runs of non punctuation, non whitespace
  characters, discarding whitespace.
* heapq.nlargest(n, keys, key) is modelled as a stable descending sort by
  the key function followed by take n, which is the documented behaviour
  (equivalent to sorted(keys, key=key, reverse=True)[:n]).
-/

set_option maxRecDepth 8000

namespace TextSummary

/-! ### Kernel computable rational arithmetic -/

/-- Rational addition written with mkRat so that the kernel can evaluate it. -/
def qadd (a b : ℚ) : ℚ := mkRat (a.num * b.den + b.num * a.den) (a.den * b.den)

/-- Rational multiplication written with mkRat so that the kernel can evaluate it. -/
def qmul (a b : ℚ) : ℚ := mkRat (a.num * b.num) (a.den * b.den)

/-- Rational inverse written with divInt so that the kernel can evaluate it. -/
def qinv (b : ℚ) : ℚ := Rat.divInt (b.den : Int) b.num

/-- Rational division, modelling the Python division operator. -/
def qdiv (a b : ℚ) : ℚ := qmul a (qinv b)

theorem qadd_eq (a b : ℚ) : qadd a b = a + b := (Rat.add_def' a b).symm

theorem qmul_eq (a b : ℚ) : qmul a b = a * b := by
  rw [qmul, ← Rat.mkRat_mul_mkRat, Rat.mkRat_self, Rat.mkRat_self]

theorem qinv_eq (b : ℚ) : qinv b = b⁻¹ := by
  rw [qinv, ← Rat.inv_def]
  rfl

theorem qdiv_eq (a b : ℚ) : qdiv a b = a / b := by
  rw [qdiv, qmul_eq, qinv_eq, div_eq_mul_inv]

/-- Truncation toward zero, modelling the Python int() conversion. -/
def int_trunc (q : ℚ) : ℤ := if q < 0 then -(Rat.floor (-q)) else Rat.floor q

theorem rat_floor_eq (q : ℚ) : Rat.floor q = ⌊q⌋ := by
  rw [Rat.floor_def' q, Rat.floor_def]

theorem int_trunc_of_nonneg {q : ℚ} (h : 0 ≤ q) : int_trunc q = ⌊q⌋ := by
  rw [int_trunc, if_neg (not_lt.mpr h), rat_floor_eq]

/-! ### Python dictionaries as insertion ordered association lists -/

/-- Lookup in an association list, modelling dict.get(k). -/
def dlookup {K : Type} [DecidableEq K] (d : List (K × ℚ)) (k : K) : Option ℚ :=
  (d.find? (fun p => decide (p.1 = k))).map (fun p => p.2)

/-- Lookup with a default value, modelling dict.get(k, v0). -/
def dlookupD {K : Type} [DecidableEq K] (d : List (K × ℚ)) (k : K) (v0 : ℚ) : ℚ :=
  (dlookup d k).getD v0

/-- Membership test, modelling the Python `in` operator on a dict. -/
def dmem {K : Type} [DecidableEq K] (d : List (K × ℚ)) (k : K) : Bool :=
  d.any (fun p => decide (p.1 = k))

/-- Update or append, modelling d[k] = v on a Python dict: an existing key
keeps its position, a new key is appended at the end. -/
def dset {K : Type} [DecidableEq K] (d : List (K × ℚ)) (k : K) (v : ℚ) : List (K × ℚ) :=
  if dmem d k then d.map (fun p => if p.1 = k then (k, v) else p) else d ++ [(k, v)]

/-- Keys of a dict in insertion order. -/
def dkeys {K : Type} (d : List (K × ℚ)) : List K := d.map (fun p => p.1)

/-- Values of a dict in insertion order. -/
def dvalues {K : Type} (d : List (K × ℚ)) : List ℚ := d.map (fun p => p.2)

theorem dkeys_dset {K : Type} [DecidableEq K] (d : List (K × ℚ)) (k : K) (v : ℚ) :
    dkeys (dset d k v) = if dmem d k then dkeys d else dkeys d ++ [k] := by
  by_cases h : dmem d k
  · rw [dset, if_pos h, if_pos h, dkeys, dkeys, List.map_map]
    apply List.map_congr_left
    intro p _
    by_cases hp : p.1 = k
    · simp [hp]
    · simp [hp]
  · rw [dset, if_neg h, if_neg h, dkeys, dkeys, List.map_append]
    rfl

theorem mem_dkeys_dset {K : Type} [DecidableEq K] (d : List (K × ℚ)) (k k' : K) (v : ℚ)
    (h : k' ∈ dkeys (dset d k v)) : k' ∈ dkeys d ∨ k' = k := by
  rw [dkeys_dset] at h
  by_cases hm : dmem d k
  · rw [if_pos hm] at h
    exact Or.inl h
  · rw [if_neg hm] at h
    rcases List.mem_append.mp h with h1 | h2
    · exact Or.inl h1
    · exact Or.inr (List.mem_singleton.mp h2)

theorem dmem_dset_self {K : Type} [DecidableEq K] (d : List (K × ℚ)) (k : K) (v : ℚ) :
    dmem (dset d k v) k = true := by
  by_cases h : dmem d k
  · rw [dset, if_pos h, dmem] at *
    rw [List.any_map]
    rcases List.any_eq_true.mp h with ⟨p, hp, hpk⟩
    apply List.any_eq_true.mpr
    refine ⟨p, hp, ?_⟩
    simp only [Function.comp]
    by_cases hp1 : p.1 = k
    · simp [hp1]
    · simp at hpk
      exact absurd hpk hp1
  · rw [dset, if_neg h, dmem, List.any_append]
    simp

theorem dmem_dset_of_dmem {K : Type} [DecidableEq K] (d : List (K × ℚ)) (k k' : K) (v : ℚ)
    (h : dmem d k' = true) : dmem (dset d k v) k' = true := by
  by_cases hm : dmem d k
  · rw [dset, if_pos hm, dmem, List.any_map]
    rcases List.any_eq_true.mp h with ⟨p, hp, hpk⟩
    apply List.any_eq_true.mpr
    refine ⟨p, hp, ?_⟩
    simp only [Function.comp]
    simp at hpk
    by_cases hp1 : p.1 = k
    · simp [hp1]
      rw [← hpk, hp1]
    · simp [hp1]
      exact hpk
  · rw [dset, if_neg hm, dmem, List.any_append]
    rw [dmem] at h
    simp [h]

theorem dset_ne_nil {K : Type} [DecidableEq K] (d : List (K × ℚ)) (k : K) (v : ℚ) :
    dset d k v ≠ [] := by
  by_cases h : dmem d k
  · rw [dset, if_pos h]
    intro hc
    rw [dmem] at h
    rcases List.any_eq_true.mp h with ⟨p, hp, _⟩
    rw [List.map_eq_nil_iff] at hc
    rw [hc] at hp
    exact absurd hp (List.not_mem_nil p)
  · rw [dset, if_neg h]
    intro hc
    exact absurd hc (List.append_ne_nil_of_right_ne_nil d (by simp))

theorem dmem_iff {K : Type} [DecidableEq K] (d : List (K × ℚ)) (k : K) :
    dmem d k = true ↔ k ∈ dkeys d := by
  rw [dmem, List.any_eq_true, dkeys]
  constructor
  · rintro ⟨p, hp, hpk⟩
    simp at hpk
    exact List.mem_map.mpr ⟨p, hp, hpk⟩
  · intro h
    rcases List.mem_map.mp h with ⟨p, hp, hpk⟩
    exact ⟨p, hp, by simp [hpk]⟩

theorem dlookup_mem_dvalues {K : Type} [DecidableEq K] {d : List (K × ℚ)} {k : K} {v : ℚ}
    (h : dlookup d k = some v) : v ∈ dvalues d := by
  rw [dlookup] at h
  rcases Option.map_eq_some'.mp h with ⟨p, hp, hpv⟩
  exact hpv ▸ List.mem_map.mpr ⟨p, List.mem_of_find?_eq_some hp, rfl⟩

theorem dvalues_dset {K : Type} [DecidableEq K] {d : List (K × ℚ)} {k : K} {v w : ℚ}
    (h : w ∈ dvalues (dset d k v)) : w ∈ dvalues d ∨ w = v := by
  by_cases hm : dmem d k
  · rw [dset, if_pos hm, dvalues, List.map_map] at h
    rcases List.mem_map.mp h with ⟨p, hp, hpw⟩
    simp only [Function.comp] at hpw
    by_cases hp1 : p.1 = k
    · rw [if_pos hp1] at hpw
      exact Or.inr hpw.symm
    · rw [if_neg hp1] at hpw
      exact Or.inl (hpw ▸ List.mem_map.mpr ⟨p, hp, rfl⟩)
  · rw [dset, if_neg hm, dvalues, List.map_append] at h
    rcases List.mem_append.mp h with h1 | h2
    · exact Or.inl h1
    · simp at h2
      exact Or.inr h2

/-! ### Frequency counting and normalization -/

/-- One step of the counting loop in src/enwar.py lines 46 and 69:
word_frequencies[w] = word_frequencies.get(w, 0) + 1. -/
def bumpWord (d : List (String × ℚ)) (w : String) : List (String × ℚ) :=
  dset d w (qadd (dlookupD d w 0) 1)

/-- The counting loop over a word list.  The English pipeline feeds it the
filtered lowercased tokens, the Arabic pipeline feeds it every token. -/
def countWords (ws : List String) : List (String × ℚ) := ws.foldl bumpWord []

/-- Python max of a list with default 1, modelling
max(word_frequencies.values(), default=1) on line 21 of src/enwar.py. -/
def pyMax (l : List ℚ) : ℚ :=
  match l with
  | [] => 1
  | x :: xs => xs.foldl max x

/-- normalize_frequencies from src/enwar.py lines 19 to 24: divide every
stored count by the maximum stored count, keeping the dict order. -/
def normalize_frequencies (wf : List (String × ℚ)) : List (String × ℚ) :=
  wf.map (fun p => (p.1, qdiv p.2 (pyMax (dvalues wf))))

theorem dkeys_normalize (wf : List (String × ℚ)) :
    dkeys (normalize_frequencies wf) = dkeys wf := by
  rw [normalize_frequencies, dkeys, dkeys, List.map_map]
  rfl

theorem dvalues_normalize (wf : List (String × ℚ)) :
    dvalues (normalize_frequencies wf) =
      (dvalues wf).map (fun v => qdiv v (pyMax (dvalues wf))) := by
  rw [normalize_frequencies, dvalues, dvalues, List.map_map, List.map_map]
  rfl

theorem normalize_ne_nil {wf : List (String × ℚ)} (h : wf ≠ []) :
    normalize_frequencies wf ≠ [] := by
  rw [normalize_frequencies]
  exact fun hc => h (List.map_eq_nil_iff.mp hc)

theorem foldl_bumpWord_ne_nil (ws : List String) (d : List (String × ℚ)) (h : d ≠ []) :
    ws.foldl bumpWord d ≠ [] := by
  induction ws generalizing d with
  | nil => exact h
  | cons w ws ih => exact ih (bumpWord d w) (dset_ne_nil d w _)

theorem countWords_ne_nil {ws : List String} (h : ws ≠ []) : countWords ws ≠ [] := by
  match ws with
  | [] => exact absurd rfl h
  | w :: ws => exact foldl_bumpWord_ne_nil ws (bumpWord [] w) (dset_ne_nil [] w _)

theorem dmem_foldl_bumpWord (ws : List String) (d : List (String × ℚ)) (w : String)
    (h : dmem d w = true ∨ w ∈ ws) : dmem (ws.foldl bumpWord d) w = true := by
  induction ws generalizing d with
  | nil => exact h.resolve_right (fun hc => absurd hc (List.not_mem_nil w))
  | cons u us ih =>
    apply ih (bumpWord d u)
    by_cases hwu : w = u
    · exact Or.inl (hwu ▸ dmem_dset_self d u _)
    · rcases h with h1 | h2
      · exact Or.inl (dmem_dset_of_dmem d u w _ h1)
      · rcases List.mem_cons.mp h2 with h3 | h4
        · exact absurd h3 hwu
        · exact Or.inr h4

theorem dmem_countWords {ws : List String} {w : String} (h : w ∈ ws) :
    dmem (countWords ws) w = true :=
  dmem_foldl_bumpWord ws [] w (Or.inr h)

theorem le_foldl_max (xs : List ℚ) (x : ℚ) : x ≤ xs.foldl max x := by
  induction xs generalizing x with
  | nil => exact le_refl x
  | cons y ys ih => exact le_trans (le_max_left x y) (ih (max x y))

theorem mem_le_foldl_max (xs : List ℚ) (x v : ℚ) (h : v ∈ xs) : v ≤ xs.foldl max x := by
  induction xs generalizing x with
  | nil => exact absurd h (List.not_mem_nil v)
  | cons y ys ih =>
    rcases List.mem_cons.mp h with h1 | h2
    · exact le_trans (h1 ▸ le_max_right x y) (le_foldl_max ys (max x y))
    · exact ih (max x y) h2

theorem le_pyMax {l : List ℚ} {v : ℚ} (h : v ∈ l) : v ≤ pyMax l := by
  match l with
  | [] => exact absurd h (List.not_mem_nil v)
  | x :: xs =>
    rcases List.mem_cons.mp h with h1 | h2
    · exact h1 ▸ le_foldl_max xs x
    · exact mem_le_foldl_max xs x v h2

theorem foldl_max_mem (xs : List ℚ) (x : ℚ) : xs.foldl max x ∈ x :: xs := by
  induction xs generalizing x with
  | nil => exact List.mem_singleton.mpr rfl
  | cons y ys ih =>
    have := ih (max x y)
    rcases List.mem_cons.mp this with h1 | h2
    · rcases max_choice x y with hx | hy
      · exact List.mem_cons.mpr (Or.inl (h1.trans hx))
      · refine List.mem_cons.mpr (Or.inr (List.mem_cons.mpr (Or.inl (h1.trans hy))))
    · exact List.mem_cons.mpr (Or.inr (List.mem_cons.mpr (Or.inr h2)))

theorem pyMax_mem {l : List ℚ} (h : l ≠ []) : pyMax l ∈ l := by
  match l with
  | [] => exact absurd rfl h
  | x :: xs => exact foldl_max_mem xs x

theorem pyMax_eq_of {l : List ℚ} {a : ℚ} (ha : a ∈ l) (h : ∀ v ∈ l, v ≤ a) :
    pyMax l = a :=
  le_antisymm (h _ (pyMax_mem (List.ne_nil_of_mem ha))) (le_pyMax ha)

/-! ### Selection and joining -/

/-- heapq.nlargest(n, keys, key), modelled as the stable descending sort by
the key function followed by take n; this is the documented behaviour,
equivalent to sorted(keys, key=key, reverse=True) truncated to n items. -/
def nlargest {K : Type} [DecidableEq K] (n : ℕ) (keys : List K) (key : K → ℚ) : List K :=
  (keys.insertionSort (fun a b => key b ≤ key a)).take n

theorem length_nlargest {K : Type} [DecidableEq K] (n : ℕ) (keys : List K) (key : K → ℚ) :
    (nlargest n keys key).length = min n keys.length := by
  rw [nlargest, List.length_take, List.length_insertionSort]

theorem mem_nlargest {K : Type} [DecidableEq K] {n : ℕ} {keys : List K} {key : K → ℚ} {k : K}
    (h : k ∈ nlargest n keys key) : k ∈ keys := by
  rw [nlargest] at h
  exact (List.mem_insertionSort _).mp (List.take_subset _ _ h)

theorem pairwise_nlargest {K : Type} [DecidableEq K] (n : ℕ) (keys : List K) (key : K → ℚ) :
    (nlargest n keys key).Pairwise (fun a b => key b ≤ key a) := by
  haveI : IsTotal K (fun a b => key b ≤ key a) := ⟨fun a b => le_total (key b) (key a)⟩
  haveI : IsTrans K (fun a b => key b ≤ key a) :=
    ⟨fun a b c h1 h2 => le_trans h2 h1⟩
  exact List.Pairwise.sublist (List.take_sublist _ _) (List.sorted_insertionSort _ _)

/-- Python " ".join. -/
def joinSp : List String → String
  | [] => ""
  | [s] => s
  | s :: t :: ts => s ++ " " ++ joinSp (t :: ts)

theorem mem_data_joinSp {l : List String} {c : Char} (h : c ∈ (joinSp l).data) :
    (∃ s ∈ l, c ∈ s.data) ∨ c = ' ' := by
  induction l with
  | nil => exact absurd h (List.not_mem_nil c)
  | cons s rest ih =>
    cases rest with
    | nil => exact Or.inl ⟨s, List.mem_singleton.mpr rfl, h⟩
    | cons t ts =>
      rw [joinSp, String.data_append, String.data_append] at h
      rcases List.mem_append.mp h with h1 | h2
      · rcases List.mem_append.mp h1 with h3 | h4
        · exact Or.inl ⟨s, List.mem_cons_self s _, h3⟩
        · simp at h4
          exact Or.inr h4
      · rcases ih h2 with ⟨u, hu, hc⟩ | hsp
        · exact Or.inl ⟨u, List.mem_cons.mpr (Or.inr hu), hc⟩
        · exact Or.inr hsp

theorem data_joinSp_of_mem {l : List String} {s : String} {c : Char}
    (hs : s ∈ l) (hc : c ∈ s.data) : c ∈ (joinSp l).data := by
  induction l with
  | nil => exact absurd hs (List.not_mem_nil s)
  | cons u rest ih =>
    cases rest with
    | nil =>
      rcases List.mem_cons.mp hs with h1 | h2
      · exact h1 ▸ hc
      · exact absurd h2 (List.not_mem_nil s)
    | cons t ts =>
      rw [joinSp, String.data_append, String.data_append]
      rcases List.mem_cons.mp hs with h1 | h2
      · exact List.mem_append.mpr (Or.inl (List.mem_append.mpr (Or.inl (h1 ▸ hc))))
      · exact List.mem_append.mpr (Or.inr (ih h2))

/-! ### The English pipeline (the spacy model is a parameter) -/

/-- A spacy token: its verbatim surface text and its punctuation flag. -/
structure Token where
  text : String
  is_punct : Bool
deriving DecidableEq

/-- A spacy sentence: its verbatim surface text and its tokens. -/
structure EnSentence where
  text : String
  tokens : List Token
deriving DecidableEq

/-- All tokens of the document in order (iteration over the spacy doc on
line 43 of src/enwar.py). -/
def docTokens (doc : List EnSentence) : List Token :=
  (doc.map (fun s => s.tokens)).flatten

/-- The English frequency loop, src/enwar.py lines 42 to 47: count every
lowercased token that is neither a stop word nor punctuation. -/
def buildFreqEn (sw : List String) (toks : List Token) : List (String × ℚ) :=
  toks.foldl
    (fun wf w =>
      if w.text.toLower ∉ sw ∧ w.is_punct = false then bumpWord wf w.text.toLower
      else wf) []

/-- The inner loop of calculate_sentence_scores, lines 31 to 35: for each
token of the sentence, add its normalized weight when it is in the table.
The dict is keyed by the sentence position, mirroring the fact that the
keys in the source are the distinct spacy span objects. -/
def scoreWordsEn (wf : List (String × ℚ)) (i : ℕ) (toks : List Token)
    (sc : List (ℕ × ℚ)) : List (ℕ × ℚ) :=
  toks.foldl
    (fun sc w =>
      match dlookup wf w.text.toLower with
      | some v => dset sc i (qadd (dlookupD sc i 0) v)
      | none => sc) sc

/-- The outer loop of calculate_sentence_scores, line 30, walking the
sentences in document order. -/
def calcScoresAux (wf : List (String × ℚ)) : ℕ → List EnSentence → List (ℕ × ℚ) → List (ℕ × ℚ)
  | _, [], sc => sc
  | i, s :: rest, sc => calcScoresAux wf (i + 1) rest (scoreWordsEn wf i s.tokens sc)

/-- calculate_sentence_scores from src/enwar.py lines 27 to 36. -/
def calculate_sentence_scores (doc : List EnSentence) (wf : List (String × ℚ)) :
    List (ℕ × ℚ) :=
  calcScoresAux wf 0 doc []

/-- num_sentences on line 55: max(1, int(len(list(doc.sents)) * r)). -/
def en_k (doc : List EnSentence) (r : ℚ) : ℕ :=
  (max 1 (int_trunc (qmul (doc.length : ℚ) r))).toNat

/-- The selected sentence indices of the English pipeline, lines 56 and 57. -/
def en_selected (nlp : String → List EnSentence) (sw : List String) (t : String) (r : ℚ) :
    List ℕ :=
  nlargest (en_k (nlp t) r)
    (dkeys (calculate_sentence_scores (nlp t)
      (normalize_frequencies (buildFreqEn sw (docTokens (nlp t))))))
    (fun i => dlookupD (calculate_sentence_scores (nlp t)
      (normalize_frequencies (buildFreqEn sw (docTokens (nlp t))))) i 0)

/-- The sentences of the English summary in output order (line 58), after
the empty vocabulary early return of lines 49 and 50. -/
def summary_sentences_english (nlp : String → List EnSentence) (sw : List String)
    (t : String) (r : ℚ) : List String :=
  if (buildFreqEn sw (docTokens (nlp t))).isEmpty then []
  else (en_selected nlp sw t r).map (fun i => ((nlp t).getD i ⟨"", []⟩).text)

/-- summarize_text_english from src/enwar.py lines 39 to 60: the joined
selected sentences, or the empty string when the vocabulary is empty. -/
def summarize_text_english (nlp : String → List EnSentence) (sw : List String)
    (t : String) (r : ℚ) : String :=
  joinSp (summary_sentences_english nlp sw t r)

/-! ### The Arabic pipeline -/

/-- The Arabic diacritic characters removed by camel_tools dediac_ar,
modelled from the documented harakat charset: fathatan, dammatan,
kasratan, fatha, damma, kasra, shadda, sukun. -/
def AR_DIAC_CHARSET : List Char :=
  ['ً', 'ٌ', 'ٍ', 'َ', 'ُ', 'ِ', 'ّ', 'ْ']

/-- dediac_ar from camel_tools (line 65): remove every diacritic character. -/
def dediac_ar (s : String) : String :=
  String.mk (s.data.filter (fun c => decide (c ∉ AR_DIAC_CHARSET)))

/-- Punctuation characters, modelling the punctuation charset used by
camel_tools simple_word_tokenize (restricted to common Latin and Arabic
punctuation; the period is the only character this development relies on). -/
def isPuncChar (c : Char) : Bool :=
  c ∈ ['.', ',', ';', ':', '!', '?', '(', ')', '"', '،', '؛', '؟']

/-- Accumulating tokenizer: the second argument is the current in-progress
word run in reversed order. -/
def tokAux : List Char → Option (List Char) → List String
  | [], none => []
  | [], some run => [String.mk run.reverse]
  | c :: rest, none =>
    if c.isWhitespace then tokAux rest none
    else if isPuncChar c then String.mk [c] :: tokAux rest none
    else tokAux rest (some [c])
  | c :: rest, some run =>
    if c.isWhitespace then String.mk run.reverse :: tokAux rest none
    else if isPuncChar c then
      String.mk run.reverse :: String.mk [c] :: tokAux rest none
    else tokAux rest (some (c :: run))

/-- simple_word_tokenize from camel_tools (lines 66 and 79), modelled as
splitting into single punctuation character tokens and maximal runs of
other non whitespace characters, discarding whitespace. -/
def simple_word_tokenize (s : String) : List String := tokAux s.data none

/-- Python str.split with separator ".", keeping empty chunks (line 76). -/
def splitDot : List Char → List (List Char)
  | [] => [[]]
  | c :: rest =>
    if c = '.' then [] :: splitDot rest
    else
      match splitDot rest with
      | [] => [[c]]
      | s :: ss => (c :: s) :: ss

/-- The sentence list of the Arabic pipeline, line 76: the dediacritized
text split on the period character. -/
def ar_sentences (t : String) : List String :=
  (splitDot (dediac_ar t).data).map (fun l => String.mk l)

/-- The word frequency table of the Arabic pipeline, lines 66 to 69. -/
def ar_wf (t : String) : List (String × ℚ) :=
  countWords (simple_word_tokenize (dediac_ar t))

/-- The inner sentence scoring loop of the Arabic pipeline, lines 80 to 83;
the dict is keyed by the chunk string itself, as in the source. -/
def scoreWordsAr (wfn : List (String × ℚ)) (s : String) (ws : List String)
    (sc : List (String × ℚ)) : List (String × ℚ) :=
  ws.foldl
    (fun sc w =>
      if dmem wfn w then dset sc s (qadd (dlookupD sc s 0) (dlookupD wfn w 0))
      else sc) sc

/-- The outer sentence scoring loop of the Arabic pipeline, lines 78 and 79,
retokenizing each chunk. -/
def arScoresAux (wfn : List (String × ℚ)) (sents : List String)
    (sc : List (String × ℚ)) : List (String × ℚ) :=
  sents.foldl (fun sc s => scoreWordsAr wfn s (simple_word_tokenize s) sc) sc

/-- The Arabic sentence score dict, lines 77 to 83. -/
def ar_scores (t : String) : List (String × ℚ) :=
  arScoresAux (normalize_frequencies (ar_wf t)) (ar_sentences t) []

/-- num_sentences on line 85: max(1, int(len(sentences) * r)). -/
def ar_k (t : String) (r : ℚ) : ℕ :=
  (max 1 (int_trunc (qmul ((ar_sentences t).length : ℚ) r))).toNat

/-- The selected chunks of the Arabic pipeline, lines 86 and 87. -/
def ar_selected (t : String) (r : ℚ) : List String :=
  nlargest (ar_k t r) (dkeys (ar_scores t)) (fun s => dlookupD (ar_scores t) s 0)

/-- The sentences of the Arabic summary in output order (line 88), after
the empty vocabulary early return of lines 71 and 72. -/
def summary_sentences_arabic (t : String) (r : ℚ) : List String :=
  if (ar_wf t).isEmpty then [] else ar_selected t r

/-- summarize_text_arabic from src/enwar.py lines 63 to 90. -/
def summarize_text_arabic (t : String) (r : ℚ) : String :=
  joinSp (summary_sentences_arabic t r)

/-! ### Dispatcher and response cleaning -/

/-- summarize_text from src/enwar.py lines 93 to 100. -/
def summarize_text (nlp : String → List EnSentence) (sw : List String)
    (t : String) (lang : String) (r : ℚ) : String :=
  if lang = "en" then summarize_text_english nlp sw t r
  else if lang = "ar" then summarize_text_arabic t r
  else "Language not supported"

/-- The character scan performed by re.sub on line 105. -/
def removeCRLFQuote : List Char → List Char
  | [] => []
  | c :: rest =>
    if c = '\r' ∨ c = '\n' ∨ c = '"' then removeCRLFQuote rest
    else c :: removeCRLFQuote rest

/-- clean_response from src/enwar.py lines 103 to 105. -/
def clean_response (s : String) : String := String.mk (removeCRLFQuote s.data)

/-- A degenerate segmentation function used to instantiate the English
pipeline parameter in witnesses. -/
def nlpNone : String → List EnSentence := fun _ => []

/-- A one-sentence segmentation function (the whole text is one sentence
and one non punctuation token) used to instantiate the English pipeline
parameter in witnesses. -/
def nlpOne : String → List EnSentence := fun t => [⟨t, [⟨t, false⟩]⟩]

example : simple_word_tokenize "x. y y." = ["x", ".", "y", "y", "."] := rfl
example : ar_sentences "x. y y." = ["x", " y y", ""] := by decide
example : summary_sentences_arabic "x. y y." 1 = [" y y", "x"] := by decide
example : summarize_text_arabic "x. y y." 1 = " y y x" := by decide
example : summarize_text_arabic "بَا." (mkRat 3 10) = "با" := by decide
example : summary_sentences_arabic "a. b. c. d. e. f. g. h. i. j" (mkRat 3 10) =
    ["a", " b", " c"] := by decide

/-! ### Claim C5 -/

/-- C5: for every input text and ratio, calling summarize_text with a
language tag other than en or ar returns the sentinel string
"Language not supported"; the function is total, so no exception is
raised. -/
theorem summarize_text_unsupported_language (nlp : String → List EnSentence)
    (sw : List String) (t : String) (lang : String) (r : ℚ)
    (hen : lang ≠ "en") (har : lang ≠ "ar") :
    summarize_text nlp sw t lang r = "Language not supported" := by
  rw [summarize_text, if_neg hen, if_neg har]

/-- Witness for C5 at the language tag fr. -/
theorem summarize_text_unsupported_language_witness :
    summarize_text nlpNone [] "hello" "fr" 1 = "Language not supported" :=
  summarize_text_unsupported_language nlpNone [] "hello" "fr" 1
    (by decide) (by decide)

/-! ### Claim C7 -/

/-- C7: two invocations of summarize_text with identical input text,
identical language tag and identical ratio (and the same loaded language
resources) produce identical output strings. -/
theorem summarize_text_deterministic (nlp : String → List EnSentence)
    (sw : List String) (t lang : String) (r : ℚ) (t2 lang2 : String) (r2 : ℚ)
    (ht : t = t2) (hl : lang = lang2) (hr : r = r2) :
    summarize_text nlp sw t lang r = summarize_text nlp sw t2 lang2 r2 := by
  rw [ht, hl, hr]

/-- Witness for C7 at a concrete Arabic input. -/
theorem summarize_text_deterministic_witness :
    summarize_text nlpNone [] "x. y y." "ar" 1 = summarize_text nlpNone [] "x. y y." "ar" 1 :=
  summarize_text_deterministic nlpNone [] "x. y y." "ar" 1 "x. y y." "ar" 1 rfl rfl rfl

/-! ### Claim C8 -/

/-- C8: clean_response removes every carriage return, newline and double
quote character and keeps all other characters unchanged in order; in
particular it maps the string Hello, newline, World, double quote to
HelloWorld. -/
theorem clean_response_removes_crlf_quote :
    (∀ s : String, clean_response s =
      String.mk (s.data.filter (fun c => decide (c ≠ '\r' ∧ c ≠ '\n' ∧ c ≠ '"')))) ∧
    clean_response "Hello\nWorld\"" = "HelloWorld" := by
  constructor
  · intro s
    rw [clean_response]
    congr 1
    induction s.data with
    | nil => rfl
    | cons c rest ih =>
      rw [removeCRLFQuote]
      by_cases h : c = '\r' ∨ c = '\n' ∨ c = '"'
      · rw [if_pos h, List.filter_cons, ih]
        have : (decide (c ≠ '\r' ∧ c ≠ '\n' ∧ c ≠ '"')) = false := by
          simp only [decide_eq_false_iff_not]
          tauto
        rw [this]
        simp
      · rw [if_neg h, List.filter_cons, ih]
        have : (decide (c ≠ '\r' ∧ c ≠ '\n' ∧ c ≠ '"')) = true := by
          simp only [decide_eq_true_eq]
          tauto
        rw [this]
        simp
  · decide

/-! ### Claim C3 -/

/-- C3: whenever the vocabulary after filtering is empty the summarizer
returns the empty string for both recognized language tags, and the empty
input string is such an input for the Arabic pipeline (for the English
pipeline the vocabulary of the empty string is empty as soon as the
segmenter returns no sentences, which the last conjunct instantiates). -/
theorem summarize_empty_vocabulary (nlp : String → List EnSentence)
    (sw : List String) (t : String) (r : ℚ) :
    ((buildFreqEn sw (docTokens (nlp t))).isEmpty = true →
      summarize_text nlp sw t "en" r = "") ∧
    ((ar_wf t).isEmpty = true → summarize_text nlp sw t "ar" r = "") ∧
    summarize_text nlp sw "" "ar" r = "" ∧
    (nlp "" = [] → summarize_text nlp sw "" "en" r = "") := by
  refine ⟨?_, ?_, ?_, ?_⟩
  · intro h
    rw [summarize_text, if_pos rfl, summarize_text_english, summary_sentences_english,
      if_pos h]
    rfl
  · intro h
    rw [summarize_text, if_neg (by decide), if_pos rfl, summarize_text_arabic,
      summary_sentences_arabic, if_pos h]
    rfl
  · rw [summarize_text, if_neg (by decide), if_pos rfl, summarize_text_arabic,
      summary_sentences_arabic, if_pos (by decide)]
    rfl
  · intro h
    rw [summarize_text, if_pos rfl, summarize_text_english, summary_sentences_english, h]
    rfl

/-- Witness for C3: empty vocabulary inputs for both pipelines. -/
theorem summarize_empty_vocabulary_witness :
    summarize_text nlpNone [] " " "en" 1 = "" ∧
    summarize_text nlpNone [] " " "ar" 1 = "" ∧
    summarize_text nlpNone [] "" "ar" 1 = "" ∧
    summarize_text nlpNone [] "" "en" 1 = "" :=
  ⟨(summarize_empty_vocabulary nlpNone [] " " 1).1 (by decide),
   (summarize_empty_vocabulary nlpNone [] " " 1).2.1 (by decide),
   (summarize_empty_vocabulary nlpNone [] "" 1).2.2.1,
   (summarize_empty_vocabulary nlpNone [] "" 1).2.2.2 rfl⟩

/-! ### Claim C4 -/

theorem dlookupD_nonneg {d : List (String × ℚ)} (hd : ∀ v ∈ dvalues d, 1 ≤ v)
    (w : String) : 0 ≤ dlookupD d w 0 := by
  rw [dlookupD]
  cases h : dlookup d w with
  | none => simp
  | some v =>
    have := hd v (dlookup_mem_dvalues h)
    simp only [Option.getD]
    linarith

theorem one_le_foldl_bumpWord (ws : List String) (d : List (String × ℚ))
    (hd : ∀ v ∈ dvalues d, 1 ≤ v) :
    ∀ v ∈ dvalues (ws.foldl bumpWord d), 1 ≤ v := by
  induction ws generalizing d with
  | nil => exact hd
  | cons w ws ih =>
    apply ih
    intro v hv
    rcases dvalues_dset hv with h1 | h2
    · exact hd v h1
    · rw [h2, qadd_eq]
      have := dlookupD_nonneg hd w
      linarith

theorem one_le_dvalues_countWords (ws : List String) :
    ∀ v ∈ dvalues (countWords ws), 1 ≤ v :=
  one_le_foldl_bumpWord ws [] (by intro v hv; exact absurd hv (List.not_mem_nil v))

/-- C4: for every nonempty word frequency table produced by the counting
loop, after normalization the maximum stored weight is exactly 1 and every
stored weight lies between 0 and 1. -/
theorem normalize_frequencies_max_one (ws : List String) (h : countWords ws ≠ []) :
    pyMax (dvalues (normalize_frequencies (countWords ws))) = 1 ∧
    ∀ v ∈ dvalues (normalize_frequencies (countWords ws)), 0 ≤ v ∧ v ≤ 1 := by
  set wf := countWords ws with hwf
  have hvals : ∀ v ∈ dvalues wf, 1 ≤ v := one_le_dvalues_countWords ws
  have hne : dvalues wf ≠ [] := by
    intro hc
    exact h (by rw [dvalues] at hc; exact List.map_eq_nil_iff.mp hc)
  set m := pyMax (dvalues wf) with hm
  have hmmem : m ∈ dvalues wf := pyMax_mem hne
  have hm1 : 1 ≤ m := hvals m hmmem
  have hmpos : 0 < m := lt_of_lt_of_le one_pos hm1
  have hdval : dvalues (normalize_frequencies wf) =
      (dvalues wf).map (fun v => qdiv v m) := dvalues_normalize wf
  have hbound : ∀ v ∈ dvalues (normalize_frequencies wf), 0 ≤ v ∧ v ≤ 1 := by
    intro v hv
    rw [hdval] at hv
    rcases List.mem_map.mp hv with ⟨u, hu, huv⟩
    have hu1 : 1 ≤ u := hvals u hu
    have hum : u ≤ m := le_pyMax hu
    rw [← huv, qdiv_eq]
    constructor
    · exact div_nonneg (by linarith) (le_of_lt hmpos)
    · exact (div_le_one hmpos).mpr hum
  refine ⟨?_, hbound⟩
  apply pyMax_eq_of
  · rw [hdval]
    refine List.mem_map.mpr ⟨m, hmmem, ?_⟩
    rw [qdiv_eq]
    exact div_self (ne_of_gt hmpos)
  · intro v hv
    exact (hbound v hv).2

/-- Witness for C4 at a concrete word list. -/
theorem normalize_frequencies_max_one_witness :
    pyMax (dvalues (normalize_frequencies (countWords ["a", "b", "a"]))) = 1 :=
  (normalize_frequencies_max_one ["a", "b", "a"] (by decide)).1

/-! ### Claim C1 -/

/-- C1 counterexample: for the Arabic pipeline on the input after x period
space y y period, with ratio 1, both scored sentences are selected, and the
summary lists the higher scoring second sentence before the first one, so
the output order is not a subsequence of the original sentence order. -/
theorem summary_order_counterexample :
    summarize_text nlpNone [] "x. y y." "ar" 1 = " y y x" ∧
    summary_sentences_arabic "x. y y." 1 = [" y y", "x"] ∧
    ar_sentences "x. y y." = ["x", " y y", ""] ∧
    ¬ List.Sublist (summary_sentences_arabic "x. y y." 1) (ar_sentences "x. y y.") :=
  ⟨by decide, by decide, by decide, by decide⟩

/-- C1 amended: in both pipelines the sentences of the summary appear in
descending score order as produced by nlargest (ties keep the first
encountered order), not in original order of appearance. -/
theorem summary_sentences_score_ordered :
    (∀ (t : String) (r : ℚ), (summary_sentences_arabic t r).Pairwise
      (fun a b => dlookupD (ar_scores t) b 0 ≤ dlookupD (ar_scores t) a 0)) ∧
    (∀ (nlp : String → List EnSentence) (sw : List String) (t : String) (r : ℚ),
      (en_selected nlp sw t r).Pairwise
        (fun i j => dlookupD (calculate_sentence_scores (nlp t)
            (normalize_frequencies (buildFreqEn sw (docTokens (nlp t))))) j 0 ≤
          dlookupD (calculate_sentence_scores (nlp t)
            (normalize_frequencies (buildFreqEn sw (docTokens (nlp t))))) i 0)) := by
  constructor
  · intro t r
    rw [summary_sentences_arabic]
    by_cases h : (ar_wf t).isEmpty
    · rw [if_pos h]
      exact List.Pairwise.nil
    · rw [if_neg h]
      exact pairwise_nlargest _ _ _
  · intro nlp sw t r
    exact pairwise_nlargest _ _ _

/-! ### Claim C2 -/

/-- C2 counterexample: the Arabic document consisting of x followed by a
period has sentence count 2 (the trailing chunk is empty), so k is 2 at
ratio 1, yet only one sentence is selected, because the empty chunk never
receives a score. -/
theorem selected_count_counterexample :
    (ar_sentences "x.").length = 2 ∧
    ar_k "x." 1 = 2 ∧
    (summary_sentences_arabic "x." 1).length = 1 ∧
    (1 : ℕ) ≠ 2 :=
  ⟨by decide, by decide, by decide, by decide⟩

/-- C2 amended: the number of selected sentences is the minimum of
k = max(1, floor(n_sentences * r)) and the number of sentences that
received a score (and 0 when the vocabulary is empty); the two cited
instances hold for documents in which every sentence is scored. -/
theorem selected_count_min :
    (∀ (t : String) (r : ℚ), (summary_sentences_arabic t r).length =
      if (ar_wf t).isEmpty then 0 else min (ar_k t r) (dkeys (ar_scores t)).length) ∧
    (∀ (nlp : String → List EnSentence) (sw : List String) (t : String) (r : ℚ),
      (summary_sentences_english nlp sw t r).length =
        if (buildFreqEn sw (docTokens (nlp t))).isEmpty then 0
        else min (en_k (nlp t) r)
          (dkeys (calculate_sentence_scores (nlp t)
            (normalize_frequencies (buildFreqEn sw (docTokens (nlp t)))))).length) ∧
    (∀ (t : String) (r : ℚ), 0 ≤ r →
      (ar_k t r : ℤ) = max 1 ⌊((ar_sentences t).length : ℚ) * r⌋) ∧
    (∀ (doc : List EnSentence) (r : ℚ), 0 ≤ r →
      (en_k doc r : ℤ) = max 1 ⌊(doc.length : ℚ) * r⌋) ∧
    (summary_sentences_arabic "a. b. c. d. e. f. g. h. i. j" (mkRat 3 10)).length = 3 ∧
    (summary_sentences_arabic "a. b" (mkRat 3 10)).length = 1 := by
  have hk : ∀ (n : ℕ) (r : ℚ), 0 ≤ r →
      (((max 1 (int_trunc (qmul (n : ℚ) r))).toNat : ℤ) = max 1 ⌊(n : ℚ) * r⌋) := by
    intro n r hr
    rw [qmul_eq, int_trunc_of_nonneg (mul_nonneg (Nat.cast_nonneg n) hr)]
    exact Int.toNat_of_nonneg (le_trans Int.one_nonneg (le_max_left 1 _))
  refine ⟨?_, ?_, fun t r hr => hk _ r hr, fun doc r hr => hk _ r hr, by decide, by decide⟩
  · intro t r
    rw [summary_sentences_arabic]
    by_cases h : (ar_wf t).isEmpty
    · rw [if_pos h, if_pos h]
      rfl
    · rw [if_neg h, if_neg h, ar_selected, length_nlargest]
  · intro nlp sw t r
    rw [summary_sentences_english]
    by_cases h : (buildFreqEn sw (docTokens (nlp t))).isEmpty
    · rw [if_pos h, if_pos h]
      rfl
    · rw [if_neg h, if_neg h, List.length_map, en_selected, length_nlargest]

/-- Witness for C2 amended: the floor formula conjuncts instantiated at the
two sentence Arabic document with ratio 1. -/
theorem selected_count_min_witness :
    (ar_k "x." 1 : ℤ) = max 1 ⌊((ar_sentences "x.").length : ℚ) * 1⌋ ∧
    (en_k (nlpOne "x") 1 : ℤ) = max 1 ⌊((nlpOne "x").length : ℚ) * 1⌋ :=
  ⟨selected_count_min.2.2.1 "x." 1 (by decide),
   selected_count_min.2.2.2.1 (nlpOne "x") 1 (by decide)⟩

/-! ### Structural lemmas about splitDot and the score dict keys -/

theorem splitDot_ne_nil (l : List Char) : splitDot l ≠ [] := by
  match l with
  | [] => exact fun h => List.noConfusion h
  | c :: rest =>
    rw [splitDot]
    by_cases h : c = '.'
    · rw [if_pos h]
      exact fun h => List.noConfusion h
    · rw [if_neg h]
      cases hs : splitDot rest with
      | nil => exact fun h => List.noConfusion h
      | cons s ss => exact fun h => List.noConfusion h

theorem splitDot_head_tail (l : List Char) :
    ∀ s ss, splitDot l = s :: ss → (s <+: l ∧ ∀ c ∈ ss, c <:+: l) := by
  induction l with
  | nil =>
    intro s ss h
    rw [splitDot] at h
    cases h
    exact ⟨List.nil_prefix, fun c hc => absurd hc (List.not_mem_nil c)⟩
  | cons a rest ih =>
    intro s ss h
    rw [splitDot] at h
    by_cases ha : a = '.'
    · rw [if_pos ha] at h
      cases h
      refine ⟨List.nil_prefix, fun c hc => ?_⟩
      cases hs : splitDot rest with
      | nil => exact absurd hs (splitDot_ne_nil rest)
      | cons s1 ss1 =>
        rw [hs] at hc
        rcases ih s1 ss1 hs with ⟨hp, hi⟩
        rcases List.mem_cons.mp hc with h1 | h2
        · exact List.infix_cons (h1 ▸ hp.isInfix)
        · exact List.infix_cons (hi c h2)
    · rw [if_neg ha] at h
      cases hs : splitDot rest with
      | nil => exact absurd hs (splitDot_ne_nil rest)
      | cons s1 ss1 =>
        rw [hs] at h
        have h2 : (a :: s1) :: ss1 = s :: ss := h
        injection h2 with h3 h4
        subst h3
        subst h4
        rcases ih s1 ss1 hs with ⟨hp, hi⟩
        refine ⟨?_, fun c hc => List.infix_cons (hi c hc)⟩
        exact List.cons_prefix_cons.mpr ⟨rfl, hp⟩

theorem mem_splitDot_span {l ch : List Char} (h : ch ∈ splitDot l) : ch <:+: l := by
  cases hs : splitDot l with
  | nil => exact absurd hs (splitDot_ne_nil l)
  | cons s ss =>
    rw [hs] at h
    rcases splitDot_head_tail l s ss hs with ⟨hp, hi⟩
    rcases List.mem_cons.mp h with h1 | h2
    · exact h1 ▸ hp.isInfix
    · exact hi ch h2

theorem mem_splitDot_no_dot {l ch : List Char} (h : ch ∈ splitDot l) : '.' ∉ ch := by
  induction l generalizing ch with
  | nil =>
    rw [splitDot] at h
    rcases List.mem_singleton.mp h with rfl
    exact List.not_mem_nil _
  | cons a rest ih =>
    rw [splitDot] at h
    by_cases ha : a = '.'
    · rw [if_pos ha] at h
      rcases List.mem_cons.mp h with h1 | h2
      · rw [h1]
        exact List.not_mem_nil _
      · exact ih h2
    · rw [if_neg ha] at h
      cases hs : splitDot rest with
      | nil => exact absurd hs (splitDot_ne_nil rest)
      | cons s1 ss1 =>
        rw [hs] at h
        have h0 : ch ∈ (a :: s1) :: ss1 := h
        rcases List.mem_cons.mp h0 with h1 | h2
        · rw [h1]
          intro hc
          rcases List.mem_cons.mp hc with h3 | h4
          · exact ha h3.symm
          · exact @ih s1 (by rw [hs]; exact List.mem_cons_self s1 ss1) h4
        · exact @ih ch (by rw [hs]; exact List.mem_cons.mpr (Or.inr h2))

theorem dkeys_scoreWordsAr_subset {wfn : List (String × ℚ)} {s : String}
    {ws : List String} {sc : List (String × ℚ)} {k : String}
    (h : k ∈ dkeys (scoreWordsAr wfn s ws sc)) :
    k ∈ dkeys sc ∨ (k = s ∧ ∃ w ∈ ws, dmem wfn w = true) := by
  induction ws generalizing sc with
  | nil => exact Or.inl h
  | cons w ws ih =>
    rw [scoreWordsAr, List.foldl_cons] at h
    rcases ih (h := h) with h1 | ⟨h2, w2, hw2, hm2⟩
    · by_cases hm : dmem wfn w
      · rw [if_pos hm] at h1
        rcases mem_dkeys_dset _ _ _ _ h1 with h3 | h4
        · exact Or.inl h3
        · exact Or.inr ⟨h4, w, List.mem_cons_self w ws, hm⟩
      · rw [if_neg hm] at h1
        exact Or.inl h1
    · exact Or.inr ⟨h2, w2, List.mem_cons.mpr (Or.inr hw2), hm2⟩

theorem dkeys_arScoresAux_subset {wfn : List (String × ℚ)} {sents : List String}
    {sc : List (String × ℚ)} {k : String}
    (h : k ∈ dkeys (arScoresAux wfn sents sc)) :
    k ∈ dkeys sc ∨ (k ∈ sents ∧ ∃ w ∈ simple_word_tokenize k, dmem wfn w = true) := by
  induction sents generalizing sc with
  | nil => exact Or.inl h
  | cons s sents ih =>
    rw [arScoresAux, List.foldl_cons] at h
    rcases ih (h := h) with h1 | ⟨h2, hw⟩
    · rcases dkeys_scoreWordsAr_subset h1 with h3 | ⟨h4, hw4⟩
      · exact Or.inl h3
      · exact Or.inr ⟨h4 ▸ List.mem_cons_self s sents, h4 ▸ hw4⟩
    · exact Or.inr ⟨List.mem_cons.mpr (Or.inr h2), hw⟩

theorem mem_dkeys_ar_scores {t : String} {k : String} (h : k ∈ dkeys (ar_scores t)) :
    k ∈ ar_sentences t ∧ ∃ w ∈ simple_word_tokenize k,
      dmem (normalize_frequencies (ar_wf t)) w = true := by
  rcases dkeys_arScoresAux_subset h with h1 | h2
  · exact absurd h1 (List.not_mem_nil k)
  · exact h2

theorem dkeys_scoreWordsEn_subset {wf : List (String × ℚ)} {i : ℕ}
    {toks : List Token} {sc : List (ℕ × ℚ)} {j : ℕ}
    (h : j ∈ dkeys (scoreWordsEn wf i toks sc)) : j ∈ dkeys sc ∨ j = i := by
  induction toks generalizing sc with
  | nil => exact Or.inl h
  | cons w ws ih =>
    rw [scoreWordsEn, List.foldl_cons] at h
    rcases ih (h := h) with h1 | h2
    · cases hm : dlookup wf w.text.toLower with
      | none =>
        rw [hm] at h1
        exact Or.inl h1
      | some v =>
        rw [hm] at h1
        rcases mem_dkeys_dset _ _ _ _ h1 with h3 | h4
        · exact Or.inl h3
        · exact Or.inr h4
    · exact Or.inr h2

theorem dkeys_calcScoresAux_lt {wf : List (String × ℚ)} {i : ℕ}
    {ss : List EnSentence} {sc : List (ℕ × ℚ)} {j : ℕ}
    (h : j ∈ dkeys (calcScoresAux wf i ss sc)) :
    j ∈ dkeys sc ∨ (i ≤ j ∧ j < i + ss.length) := by
  induction ss generalizing i sc with
  | nil => exact Or.inl h
  | cons s rest ih =>
    rw [calcScoresAux] at h
    rcases ih (h := h) with h1 | h2
    · rcases dkeys_scoreWordsEn_subset h1 with h3 | h4
      · exact Or.inl h3
      · right
        rw [h4, List.length_cons]
        omega
    · right
      rw [List.length_cons]
      omega

theorem mem_dkeys_calculate_lt {doc : List EnSentence} {wf : List (String × ℚ)} {j : ℕ}
    (h : j ∈ dkeys (calculate_sentence_scores doc wf)) : j < doc.length := by
  rcases dkeys_calcScoresAux_lt h with h1 | h2
  · exact absurd h1 (List.not_mem_nil j)
  · omega

/-! ### Claim C6 -/

/-- C6 counterexample: an Arabic input containing a fatha diacritic; the
produced summary sentence is the dediacritized form, which is not a
contiguous span of the original input text. -/
theorem arabic_summary_not_verbatim :
    summarize_text nlpNone [] "بَا." "ar" (mkRat 3 10) = "با" ∧
    ¬ ("با".data <:+: "بَا.".data) :=
  ⟨by decide, by decide⟩

/-- C6 amended: every sentence of the Arabic summary is a contiguous span
of the dediacritized input text (hence of the original only when the input
has no diacritics), and every sentence of the English summary is the
verbatim text of a sentence produced by the segmenter, hence a contiguous
span of the input whenever the segmenter returns spans of the input. -/
theorem summary_sentences_spans :
    (∀ (t : String) (r : ℚ) (s : String), s ∈ summary_sentences_arabic t r →
      s.data <:+: (dediac_ar t).data) ∧
    (∀ (nlp : String → List EnSentence) (sw : List String) (t : String) (r : ℚ),
      (∀ sent ∈ nlp t, sent.text.data <:+: t.data) →
      ∀ s ∈ summary_sentences_english nlp sw t r, s.data <:+: t.data) := by
  constructor
  · intro t r s hs
    rw [summary_sentences_arabic] at hs
    by_cases h : (ar_wf t).isEmpty
    · rw [if_pos h] at hs
      exact absurd hs (List.not_mem_nil s)
    · rw [if_neg h] at hs
      have hk : s ∈ dkeys (ar_scores t) := mem_nlargest hs
      have hsent : s ∈ ar_sentences t := (mem_dkeys_ar_scores hk).1
      rw [ar_sentences] at hsent
      rcases List.mem_map.mp hsent with ⟨ch, hch, hmk⟩
      have : s.data = ch := by rw [← hmk]
      rw [this]
      exact mem_splitDot_span hch
  · intro nlp sw t r hspan s hs
    rw [summary_sentences_english] at hs
    by_cases h : (buildFreqEn sw (docTokens (nlp t))).isEmpty
    · rw [if_pos h] at hs
      exact absurd hs (List.not_mem_nil s)
    · rw [if_neg h] at hs
      rcases List.mem_map.mp hs with ⟨i, hi, hit⟩
      have hilt : i < (nlp t).length := mem_dkeys_calculate_lt (mem_nlargest hi)
      have hget : (nlp t).getD i ⟨"", []⟩ = (nlp t)[i] := List.getD_eq_getElem _ _ hilt
      rw [← hit, hget]
      exact hspan _ (List.getElem_mem hilt)

/-- Witness for C6 amended: both parts applied at concrete inputs. -/
theorem summary_sentences_spans_witness :
    "x".data <:+: (dediac_ar "x. y.").data ∧
    ∀ s ∈ summary_sentences_english nlpOne [] "ab" 1, s.data <:+: "ab".data :=
  ⟨summary_sentences_spans.1 "x. y." 1 "x" (by decide),
   summary_sentences_spans.2 nlpOne [] "ab" 1
     (by
       intro sent hsent
       rcases List.mem_singleton.mp hsent with rfl
       exact List.infix_refl _)⟩

/-! ### Claim C10 -/

theorem splitDot_append_dot (l : List Char) :
    splitDot (l ++ ['.']) = splitDot l ++ [[]] := by
  induction l with
  | nil => rfl
  | cons c l ih =>
    by_cases hc : c = '.'
    · rw [List.cons_append, splitDot, if_pos hc, ih, splitDot, if_pos hc]
      rfl
    · rw [List.cons_append, splitDot, if_neg hc, ih, splitDot, if_neg hc]
      cases hs : splitDot l with
      | nil => exact absurd hs (splitDot_ne_nil l)
      | cons s ss => rfl

/-- C10 counterexample: the input x period period y period ends with a
period, has 4 chunks after splitting but only 2 nonempty ones, so the
chunk count is not one greater than the nonempty sentence count. -/
theorem arabic_count_counterexample :
    "x..y.".data = "x..y".data ++ ['.'] ∧
    (ar_sentences "x..y.").length = 4 ∧
    (ar_sentences "x..y.").countP (fun s => decide (s ≠ "")) = 2 ∧
    (4 : ℕ) ≠ 2 + 1 :=
  ⟨by decide, by decide, by decide, by decide⟩

/-- C10 amended: the sentence count used to compute k in the Arabic
pipeline is the number of chunks of the dediacritized text split on the
period, empty chunks included; for every text ending with a period the
count strictly exceeds the number of nonempty sentences (by exactly the
number of empty chunks, at least one), so k can exceed
max(1, floor(n_nonempty * r)): at the input x period with ratio 1, k is 2
while the nonempty count 1 gives max(1, floor(1 * 1)) = 1. -/
theorem arabic_sentence_count_trailing_period :
    (∀ (t : String) (r : ℚ), ar_k t r =
      (max 1 (int_trunc (qmul ((splitDot (dediac_ar t).data).length : ℚ) r))).toNat) ∧
    (∀ (t : String) (l : List Char), t.data = l ++ ['.'] →
      (ar_sentences t).countP (fun s => decide (s ≠ "")) < (ar_sentences t).length) ∧
    (ar_k "x." 1 = 2 ∧
      (ar_sentences "x.").countP (fun s => decide (s ≠ "")) = 1 ∧
      (max 1 (int_trunc (qmul ((1 : ℕ) : ℚ) 1))).toNat = 1) := by
  refine ⟨?_, ?_, by decide, by decide, by decide⟩
  · intro t r
    rw [ar_k, ar_sentences, List.length_map]
  · intro t l hdata
    have hd : (dediac_ar t).data =
        l.filter (fun c => decide (c ∉ AR_DIAC_CHARSET)) ++ ['.'] := by
      show t.data.filter _ = _
      rw [hdata, List.filter_append]
      rfl
    rw [ar_sentences, hd, splitDot_append_dot, List.map_append, List.countP_append,
      List.length_append]
    have h0 : List.countP (fun s => decide (s ≠ ""))
        ([([] : List Char)].map (fun l2 => String.mk l2)) = 0 := by decide
    rw [h0]
    have hle := List.countP_le_length (l :=
      (splitDot (l.filter (fun c => decide (c ∉ AR_DIAC_CHARSET)))).map
        (fun l2 => String.mk l2)) (p := fun s => decide (s ≠ ""))
    have h1 : ([([] : List Char)].map (fun l2 => String.mk l2)).length = 1 := by decide
    omega

/-- Witness for C10 amended at the input x period. -/
theorem arabic_sentence_count_trailing_period_witness :
    (ar_sentences "x.").countP (fun s => decide (s ≠ "")) < (ar_sentences "x.").length :=
  arabic_sentence_count_trailing_period.2.1 "x." ['x'] (by decide)

/-! ### Claim C9 -/

theorem tokAux_eq_nil (l : List Char) :
    ∀ acc, tokAux l acc = [] → acc = none ∧ ∀ c ∈ l, c.isWhitespace = true := by
  induction l with
  | nil =>
    intro acc h
    cases acc with
    | none => exact ⟨rfl, fun c hc => absurd hc (List.not_mem_nil c)⟩
    | some run => exact absurd h (by simp [tokAux])
  | cons c rest ih =>
    intro acc h
    cases acc with
    | none =>
      simp only [tokAux] at h
      by_cases hw : c.isWhitespace
      · rw [if_pos hw] at h
        rcases ih none h with ⟨_, hall⟩
        refine ⟨rfl, fun d hd => ?_⟩
        rcases List.mem_cons.mp hd with h1 | h2
        · exact h1 ▸ hw
        · exact hall d h2
      · rw [if_neg hw] at h
        by_cases hp : isPuncChar c
        · rw [if_pos hp] at h
          exact absurd h (fun hc => List.noConfusion hc)
        · rw [if_neg hp] at h
          rcases ih (some [c]) h with ⟨h1, _⟩
          exact absurd h1 (fun hc => Option.noConfusion hc)
    | some run =>
      simp only [tokAux] at h
      by_cases hw : c.isWhitespace
      · rw [if_pos hw] at h
        exact absurd h (fun hc => List.noConfusion hc)
      · rw [if_neg hw] at h
        by_cases hp : isPuncChar c
        · rw [if_pos hp] at h
          exact absurd h (fun hc => List.noConfusion hc)
        · rw [if_neg hp] at h
          rcases ih (some (c :: run)) h with ⟨h1, _⟩
          exact absurd h1 (fun hc => Option.noConfusion hc)

theorem tokenize_of_all_ws (l : List Char) (h : ∀ c ∈ l, c.isWhitespace = true) :
    tokAux l none = [] := by
  induction l with
  | nil => rfl
  | cons c rest ih =>
    simp only [tokAux]
    rw [if_pos (h c (List.mem_cons_self c rest))]
    exact ih (fun d hd => h d (List.mem_cons.mpr (Or.inr hd)))

theorem exists_nonws_of_tokenize_ne_nil {s : String} (h : simple_word_tokenize s ≠ []) :
    ∃ c ∈ s.data, c.isWhitespace = false := by
  by_contra hc
  push_neg at hc
  apply h
  apply tokenize_of_all_ws
  intro c hmem
  have := hc c hmem
  cases hw : c.isWhitespace
  · exact absurd hw this
  · rfl

theorem dediac_ar_of_no_diacritics {s : String}
    (h : ∀ c ∈ s.data, c ∉ AR_DIAC_CHARSET) : dediac_ar s = s := by
  rw [dediac_ar]
  have hfil : s.data.filter (fun c => decide (c ∉ AR_DIAC_CHARSET)) = s.data :=
    List.filter_eq_self.mpr (fun c hc => by simp [h c hc])
  rw [hfil]

theorem mem_dediac_no_diacritic {t : String} {c : Char} (h : c ∈ (dediac_ar t).data) :
    c ∉ AR_DIAC_CHARSET := by
  rw [dediac_ar] at h
  have := List.of_mem_filter h
  simpa using this

theorem sel_chunk_facts {t s : String} (h : s ∈ dkeys (ar_scores t)) :
    ('.' ∉ s.data) ∧ ∀ c ∈ s.data, c ∉ AR_DIAC_CHARSET := by
  have hsent := (mem_dkeys_ar_scores h).1
  rw [ar_sentences] at hsent
  rcases List.mem_map.mp hsent with ⟨ch, hch, hmk⟩
  have hdata : s.data = ch := by rw [← hmk]
  constructor
  · rw [hdata]
    exact mem_splitDot_no_dot hch
  · intro c hc
    rw [hdata] at hc
    exact mem_dediac_no_diacritic ((mem_splitDot_span hch).subset hc)

theorem splitDot_of_no_dot {l : List Char} (h : '.' ∉ l) : splitDot l = [l] := by
  induction l with
  | nil => rfl
  | cons c rest ih =>
    have hc : ¬ (c = '.') := fun he => h (he ▸ List.mem_cons_self c rest)
    rw [splitDot, if_neg hc, ih (fun hm => h (List.mem_cons.mpr (Or.inr hm)))]

theorem dmem_scoreWordsAr_self {wfn : List (String × ℚ)} {s : String} {ws : List String}
    (sc : List (String × ℚ)) (h : (∃ w ∈ ws, dmem wfn w = true) ∨ dmem sc s = true) :
    dmem (scoreWordsAr wfn s ws sc) s = true := by
  induction ws generalizing sc with
  | nil =>
    rcases h with ⟨w, hw, _⟩ | h2
    · exact absurd hw (List.not_mem_nil w)
    · exact h2
  | cons u us ih =>
    rw [scoreWordsAr, List.foldl_cons]
    refine ih _ ?_
    by_cases hm : dmem wfn u
    · rw [if_pos hm]
      exact Or.inr (dmem_dset_self sc s _)
    · rw [if_neg hm]
      rcases h with ⟨w, hw, hwm⟩ | h2
      · rcases List.mem_cons.mp hw with h3 | h4
        · exact absurd (h3 ▸ hwm) hm
        · exact Or.inl ⟨w, h4, hwm⟩
      · exact Or.inr h2

theorem dkeys_scoreWordsAr_single {wfn : List (String × ℚ)} {s : String} {ws : List String}
    (sc : List (String × ℚ)) (h : dkeys sc = [] ∨ dkeys sc = [s]) :
    dkeys (scoreWordsAr wfn s ws sc) = [] ∨ dkeys (scoreWordsAr wfn s ws sc) = [s] := by
  induction ws generalizing sc with
  | nil => exact h
  | cons u us ih =>
    rw [scoreWordsAr, List.foldl_cons]
    refine ih _ ?_
    by_cases hm : dmem wfn u
    · rw [if_pos hm, dkeys_dset]
      by_cases hms : dmem sc s
      · rw [if_pos hms]
        exact h
      · rw [if_neg hms]
        rcases h with h1 | h2
        · rw [h1]
          exact Or.inr rfl
        · rw [dmem_iff, h2] at hms
          exact absurd (List.mem_singleton.mpr rfl) hms
    · rw [if_neg hm]
      exact h

theorem dkeys_arScores_of_single (wfn : List (String × ℚ)) (s : String)
    (hhit : ∃ w ∈ simple_word_tokenize s, dmem wfn w = true) :
    dkeys (arScoresAux wfn [s] []) = [s] := by
  rw [arScoresAux, List.foldl_cons, List.foldl_nil]
  have hsub : dkeys (scoreWordsAr wfn s (simple_word_tokenize s) []) = [] ∨
      dkeys (scoreWordsAr wfn s (simple_word_tokenize s) []) = [s] :=
    dkeys_scoreWordsAr_single [] (Or.inl rfl)
  have hmem : dmem (scoreWordsAr wfn s (simple_word_tokenize s) []) s = true :=
    dmem_scoreWordsAr_self [] (Or.inl hhit)
  rcases hsub with h1 | h2
  · rw [dmem_iff, h1] at hmem
    exact absurd hmem (List.not_mem_nil s)
  · exact h2

/-- C9 counterexample: re-summarizing the summary of the x period y y
period document with ratio 1 yields a single sentence equal to the whole
previous summary, which is not among the two sentences the first summary
was built from, so the set of sentences is not preserved. -/
theorem resummarize_not_same_sentences :
    summarize_text nlpNone [] "x. y y." "ar" 1 = " y y x" ∧
    summary_sentences_arabic "x. y y." 1 = [" y y", "x"] ∧
    summary_sentences_arabic " y y x" 1 = [" y y x"] ∧
    " y y x" ∉ [" y y", "x"] :=
  ⟨by decide, by decide, by decide, by decide⟩

/-- C9 amended: for the Arabic pipeline, re-summarizing the produced
summary with ratio 1 returns the summary string unchanged: the re-run sees
the whole summary as one single sentence, because the separating periods
were consumed by the split, so no further reduction happens; the original
set of sentences is not recovered (see the counterexample). -/
theorem summarize_arabic_fixpoint (t : String) (r : ℚ) :
    summarize_text_arabic (summarize_text_arabic t r) 1 = summarize_text_arabic t r := by
  by_cases hemp : (ar_wf t).isEmpty
  · have hout : summarize_text_arabic t r = "" := by
      rw [summarize_text_arabic, summary_sentences_arabic, if_pos hemp]
      rfl
    rw [hout]
    decide
  · cases hsel : ar_selected t r with
    | nil =>
      have hout : summarize_text_arabic t r = "" := by
        rw [summarize_text_arabic, summary_sentences_arabic, if_neg hemp, hsel]
        rfl
      rw [hout]
      decide
    | cons s0 rest =>
      have hout : summarize_text_arabic t r = joinSp (s0 :: rest) := by
        rw [summarize_text_arabic, summary_sentences_arabic, if_neg hemp, hsel]
      set out := joinSp (s0 :: rest) with hdefout
      rw [hout]
      have hmem_keys : ∀ s ∈ s0 :: rest, s ∈ dkeys (ar_scores t) := by
        intro s hs
        apply mem_nlargest
        show s ∈ ar_selected t r
        rw [hsel]
        exact hs
      have hchunk : ∀ s ∈ s0 :: rest, ('.' ∉ s.data) ∧ ∀ c ∈ s.data, c ∉ AR_DIAC_CHARSET :=
        fun s hs => sel_chunk_facts (hmem_keys s hs)
      have hnodot : '.' ∉ out.data := by
        intro hc
        rcases mem_data_joinSp hc with ⟨s, hs, hcs⟩ | hsp
        · exact (hchunk s hs).1 hcs
        · exact absurd hsp (by decide)
      have hnodiac : ∀ c ∈ out.data, c ∉ AR_DIAC_CHARSET := by
        intro c hc
        rcases mem_data_joinSp hc with ⟨s, hs, hcs⟩ | hsp
        · exact (hchunk s hs).2 c hcs
        · rw [hsp]
          decide
      have hdediac : dediac_ar out = out := dediac_ar_of_no_diacritics hnodiac
      rcases (mem_dkeys_ar_scores (hmem_keys s0 (List.mem_cons_self s0 rest))).2 with
        ⟨w0, hw0, hm0⟩
      have htok0 : simple_word_tokenize s0 ≠ [] := List.ne_nil_of_mem hw0
      rcases exists_nonws_of_tokenize_ne_nil htok0 with ⟨c0, hc0, hcw⟩
      have hc0out : c0 ∈ out.data := data_joinSp_of_mem (List.mem_cons_self s0 rest) hc0
      have htokout : simple_word_tokenize out ≠ [] := by
        intro hc
        rcases tokAux_eq_nil out.data none hc with ⟨_, hall⟩
        rw [hall c0 hc0out] at hcw
        exact Bool.noConfusion hcw
      have hwfout : ar_wf out ≠ [] := by
        rw [ar_wf, hdediac]
        exact countWords_ne_nil htokout
      have hwfout2 : (ar_wf out).isEmpty = false := by
        cases hwf : ar_wf out with
        | nil => exact absurd hwf hwfout
        | cons p ps => rfl
      have hsentsout : ar_sentences out = [out] := by
        rw [ar_sentences, hdediac, splitDot_of_no_dot hnodot]
        rfl
      have hhit : ∃ w ∈ simple_word_tokenize out,
          dmem (normalize_frequencies (ar_wf out)) w = true := by
        cases htk : simple_word_tokenize out with
        | nil => exact absurd htk htokout
        | cons w ws =>
          refine ⟨w, List.mem_cons_self w ws, ?_⟩
          rw [dmem_iff, dkeys_normalize, ← dmem_iff, ar_wf, hdediac]
          exact dmem_countWords (by rw [htk]; exact List.mem_cons_self w ws)
      have hkeysout : dkeys (ar_scores out) = [out] := by
        rw [ar_scores, hsentsout]
        exact dkeys_arScores_of_single _ _ hhit
      have hkout : ar_k out 1 = 1 := by
        rw [ar_k, hsentsout]
        show (max 1 (int_trunc (qmul ((1 : ℕ) : ℚ) 1))).toNat = 1
        decide
      have hemp2 : ¬ ((ar_wf out).isEmpty = true) := by
        rw [hwfout2]
        exact Bool.false_ne_true
      rw [summarize_text_arabic, summary_sentences_arabic, if_neg hemp2, ar_selected,
        hkeysout, hkout]
      rfl

end TextSummary
